import Mathlib

/-!
# FIFO trade processing — verification development

Shallow embedding of `src/fifo_processor.py` (`process_trades_fifo`).

Modelling conventions:
* Security names (`ScripName`) are modelled as `Nat` identifiers.
* Calendar dates are modelled as `Nat`; the Python code keys its pending
  buckets by the `yyyy-mm-dd` string of the date and compares those strings
  lexicographically, which agrees with the date order, so a `Nat` date with
  the usual order is a faithful model.
* Quantities and prices are `ℚ` (exact arithmetic standing in for the
  Python floats; the spec describes them as non-negative real numbers).
* `pandas` row iteration order is list order; `df[df['ScripName'] == c]`
  is `List.filter`; Python's `sorted` on the distinct bucket dates is
  `List.insertionSort` (any sort agrees: the keys are distinct).
-/

namespace Fifo

/-- One input ledger row (one `TradeEvent`): the columns of the CSV that the
matching core reads, after the numeric cleaning done at the top of
`process_trades_fifo`.  `idx` is the original row position (the DataFrame
index produced by `iterrows`). -/
structure Row where
  scrip : Nat
  date : Nat
  segment : String
  clientCode : String
  buyQty : ℚ
  buyPrice : ℚ
  sellQty : ℚ
  sellPrice : ℚ
  idx : Nat
  deriving Repr, DecidableEq

/-- A pending same-day buy bucket: one entry of the Python `daily_buys`
dictionary (keyed there by the date string). -/
structure DailyBuy where
  scrip : Nat
  date : Nat
  segment : String
  clientCode : String
  buyQty : ℚ
  buyAmount : ℚ
  trades : List Nat
  lastIndex : Nat
  deriving Repr, DecidableEq

/-- One entry of the Python `purchase_queue`: a lot. -/
structure Lot where
  scrip : Nat
  date : Nat
  segment : String
  clientCode : String
  buyQty : ℚ
  buyPrice : ℚ
  orderNo : String
  remainingQty : ℚ
  originalIndex : Nat
  aggregatedTrades : Nat
  deriving Repr, DecidableEq

/-- A shortfall diagnostic: the "Could not match ... shares" warning. -/
structure Shortfall where
  scrip : Nat
  date : Nat
  qty : ℚ
  deriving Repr, DecidableEq

/-- The per-security mutable state of the processing loop. -/
structure SecState where
  queue : List Lot
  daily : List DailyBuy
  shortfalls : List Shortfall
  deriving Repr, DecidableEq

/-- The bucket created when a buy is seen on a date with no pending bucket
(the `if date_str not in daily_buys` branch, lines 86–96). -/
def newBucket (r : Row) : DailyBuy :=
  { scrip := r.scrip, date := r.date, segment := r.segment,
    clientCode := r.clientCode, buyQty := r.buyQty,
    buyAmount := r.buyQty * r.buyPrice, trades := [r.idx], lastIndex := r.idx }

/-- Record a buy into `daily_buys` (lines 80–103): accumulate into the
bucket of the same date if present, otherwise create a fresh bucket. -/
def addBuy : List DailyBuy → Row → List DailyBuy
  | [], r => [newBucket r]
  | b :: rest, r =>
    if b.date = r.date then
      { b with buyQty := b.buyQty + r.buyQty,
               buyAmount := b.buyAmount + r.buyQty * r.buyPrice,
               trades := b.trades ++ [r.idx],
               lastIndex := r.idx } :: rest
    else
      b :: addBuy rest r

/-- Convert a pending bucket into a queued lot (lines 118–134 / 170–185):
unit price is the weighted average `BuyAmount / BuyQty`, guarded by the
`if buy_data['BuyQty'] > 0 else 0` of lines 120 and 171. -/
def mkLot (b : DailyBuy) : Lot :=
  { scrip := b.scrip, date := b.date, segment := b.segment,
    clientCode := b.clientCode, buyQty := b.buyQty,
    buyPrice := if 0 < b.buyQty then b.buyAmount / b.buyQty else 0,
    orderNo := "Aggregated-" ++ toString b.date,
    remainingQty := b.buyQty,
    originalIndex := b.lastIndex,
    aggregatedTrades := b.trades.length }

/-- The FIFO matching loop (lines 148–164): walk the queue from the front,
consuming each lot's `RemainingQty` until the quantity to sell runs out or
the queue is exhausted.  Returns the updated queue and the leftover
(unmatched) quantity. -/
def applySell : List Lot → ℚ → List Lot × ℚ
  | [], toSell => ([], toSell)
  | lot :: rest, toSell =>
    if 0 < toSell then
      if lot.remainingQty ≤ toSell then
        let res := applySell rest (toSell - lot.remainingQty)
        ({ lot with remainingQty := 0 } :: res.1, res.2)
      else
        ({ lot with remainingQty := lot.remainingQty - toSell } :: rest, 0)
    else
      (lot :: rest, toSell)

/-- Ordering of pending buckets by date (the order `sorted(daily_buys.keys())`
flushes them in). -/
def DailyBuy.dateLE (a b : DailyBuy) : Prop := a.date ≤ b.date

instance : DecidableRel DailyBuy.dateLE := fun a b => Nat.decLe a.date b.date

instance : IsTotal DailyBuy DailyBuy.dateLE := ⟨fun a b => Nat.le_total a.date b.date⟩

instance : IsTrans DailyBuy DailyBuy.dateLE := ⟨fun _ _ _ => Nat.le_trans⟩

/-- The queue a sell event on row `r` is matched against: the existing queue
followed by the lots flushed from the pending buckets whose date is ≤ the
sell's date, in ascending date order (lines 109–139). -/
def matchQueue (s : SecState) (r : Row) : List Lot :=
  s.queue ++
    (List.insertionSort DailyBuy.dateLE
      (s.daily.filter (fun b => decide (b.date ≤ r.date)))).map mkLot

/-- One iteration of the event loop (lines 75–167): `if trade['BuyQty'] > 0`
record the buy into `daily_buys`; `elif trade['SellQty'] > 0` flush the
eligible buckets into the queue, match the sell FIFO, and record a
shortfall warning if quantity is left over; otherwise do nothing. -/
def stepTrade (s : SecState) (r : Row) : SecState :=
  if 0 < r.buyQty then
    { s with daily := addBuy s.daily r }
  else if 0 < r.sellQty then
    let res := applySell (matchQueue s r) r.sellQty
    { queue := res.1,
      daily := s.daily.filter (fun b => ! decide (b.date ≤ r.date)),
      shortfalls :=
        if 0 < res.2 then s.shortfalls ++ [⟨r.scrip, r.date, res.2⟩]
        else s.shortfalls }
  else s

/-- Initial per-security state: empty queue, no pending buckets. -/
def initState : SecState := ⟨[], [], []⟩

/-- Run one security's event stream through the loop. -/
def runSec (rows : List Row) : SecState := rows.foldl stepTrade initState

/-- End-of-stream flush (lines 169–187): every still-pending bucket is
appended to the queue as a lot, in ascending date order. -/
def finishSec (s : SecState) : List Lot :=
  s.queue ++ (List.insertionSort DailyBuy.dateLE s.daily).map mkLot

/-- Process one security: final lot queue and shortfall diagnostics. -/
def processSecurity (rows : List Row) : List Lot × List Shortfall :=
  ((runSec rows).queue ++
    (List.insertionSort DailyBuy.dateLE (runSec rows).daily).map mkLot,
   (runSec rows).shortfalls)

/-- The distinct values of a list in order of first occurrence:
`df['ScripName'].unique()`. -/
def firstOccur : List Nat → List Nat
  | [] => []
  | c :: rest => c :: (firstOccur rest).filter (fun x => x ≠ c)

/-- The rows of one security, in input order: `df[df['ScripName'] == c]`. -/
def rowsFor (rows : List Row) (c : Nat) : List Row :=
  rows.filter (fun r => r.scrip = c)

/-- `is_monotonic_increasing`: dates non-decreasing, equal dates allowed. -/
def datesMonotone : List Nat → Bool
  | [] => true
  | [_] => true
  | a :: b :: rest => a ≤ b && datesMonotone (b :: rest)

/-- Whether a security's rows are in chronological order (lines 44–45). -/
def sortedCompany (rows : List Row) (c : Nat) : Bool :=
  datesMonotone ((rowsFor rows c).map Row.date)

/-- The securities flagged by the chronological-order check (lines 41–46);
these are surfaced in the warning block of lines 48–52. -/
def unsortedCompanies (rows : List Row) : List Nat :=
  (firstOccur (rows.map Row.scrip)).filter (fun c => ! sortedCompany rows c)

/-- `companies_to_process` (line 62): every security not flagged. -/
def companiesToProcess (rows : List Row) : List Nat :=
  (firstOccur (rows.map Row.scrip)).filter
    (fun c => ! (unsortedCompanies rows).contains c)

/-- `remaining_purchases` (lines 189–192): for each processed security, the
final lots with positive remaining quantity, in queue order, concatenated
across securities. -/
def remainingPurchases (rows : List Row) : List Lot :=
  ((companiesToProcess rows).map
    (fun c => (processSecurity (rowsFor rows c)).1.filter
      (fun l => decide (0 < l.remainingQty)))).flatten

/-- One row of the output DataFrame.  `originalIndex` is the
`Original_Index` used for the final sort (the code drops that column after
sorting; it is kept here so the ordering can be stated). -/
structure ResultRow where
  scrip : Nat
  segment : String
  date : Nat
  buyQty : ℚ
  buyPrice : ℚ
  remainingQty : ℚ
  remainingCost : ℚ
  clientCode : String
  orderNo : String
  numTrades : Nat
  originalIndex : Nat
  deriving Repr, DecidableEq

/-- Derive the output row of a surviving lot, including
`RemainingCost = RemainingQty * BuyPrice` (line 204). -/
def toResultRow (l : Lot) : ResultRow :=
  { scrip := l.scrip, segment := l.segment, date := l.date,
    buyQty := l.buyQty, buyPrice := l.buyPrice,
    remainingQty := l.remainingQty,
    remainingCost := l.remainingQty * l.buyPrice,
    clientCode := l.clientCode, orderNo := l.orderNo,
    numTrades := l.aggregatedTrades, originalIndex := l.originalIndex }

/-- Ordering of lots by originating row index (`sort_values('Original_Index')`,
line 200). -/
def Lot.idxLE (a b : Lot) : Prop := a.originalIndex ≤ b.originalIndex

instance : DecidableRel Lot.idxLE := fun a b => Nat.decLe a.originalIndex b.originalIndex

instance : IsTotal Lot Lot.idxLE := ⟨fun a b => Nat.le_total a.originalIndex b.originalIndex⟩

instance : IsTrans Lot Lot.idxLE := ⟨fun _ _ _ => Nat.le_trans⟩

/-- The whole run (lines 54–218): process every chronologically ordered
security, collect surviving lots, sort them back into original row order
and derive the output columns. -/
def processAll (rows : List Row) : List ResultRow :=
  (List.insertionSort Lot.idxLE (remainingPurchases rows)).map toResultRow

/-! ### Derived quantities and spec-side definitions -/

/-- The lot-consumption rule in the words of §4.1 of the spec: walk the
queue from the front, each lot gives up `min (remainingQty) (toSell)`, its
`remainingQty` and `toSell` are both decremented by that amount.  This is
the spec-side definition, to be compared with `applySell` (which is the
translation of the `while` loop of the code). -/
def specConsume : List Lot → ℚ → List Lot × ℚ
  | [], toSell => ([], toSell)
  | lot :: rest, toSell =>
    let used := min lot.remainingQty toSell
    let res := specConsume rest (toSell - used)
    ({ lot with remainingQty := lot.remainingQty - used } :: res.1, res.2)

/-- Total remaining quantity held in a lot queue. -/
def sumRemQ (q : List Lot) : ℚ := (q.map Lot.remainingQty).sum

/-- Total quantity consumed out of a lot queue: `Σ (originalQty − remainingQty)`. -/
def consumed (q : List Lot) : ℚ :=
  (q.map (fun l => l.buyQty - l.remainingQty)).sum

/-- Total sell quantity of an event stream (the quantity of every row that
carries a positive sell leg). -/
def totalSellQty (rows : List Row) : ℚ :=
  (rows.map (fun r => if 0 < r.sellQty then r.sellQty else 0)).sum

/-- Total quantity reported in shortfall diagnostics. -/
def totalShortfall (sf : List Shortfall) : ℚ := (sf.map Shortfall.qty).sum

/-- Total buy quantity of an event stream. -/
def totalBuyQty (rows : List Row) : ℚ := (rows.map Row.buyQty).sum

/-- Total buy amount (`Σ qty × price`) of an event stream. -/
def totalBuyAmount (rows : List Row) : ℚ :=
  (rows.map (fun r => r.buyQty * r.buyPrice)).sum

/-- All final lots of every processed security, before the
`RemainingQty > 0` filter, in processing order. -/
def allLots (rows : List Row) : List Lot :=
  ((companiesToProcess rows).map
    (fun c => (processSecurity (rowsFor rows c)).1)).flatten

/-- The loop invariant of the per-security state: every queued lot has
`0 ≤ remainingQty ≤ originalQty` and every pending bucket has strictly
positive cumulative quantity. -/
def Inv (s : SecState) : Prop :=
  (∀ l ∈ s.queue, 0 ≤ l.remainingQty ∧ l.remainingQty ≤ l.buyQty) ∧
  (∀ b ∈ s.daily, 0 < b.buyQty)

/-! ### Basic lemmas about the matching loop -/

lemma applySell_nonpos (q : List Lot) (t : ℚ) (ht : ¬ 0 < t) :
    applySell q t = (q, t) := by
  cases q with
  | nil => rfl
  | cons l rest => simp [applySell, ht]

lemma specConsume_zero (q : List Lot) (hq : ∀ l ∈ q, 0 ≤ l.remainingQty) :
    specConsume q 0 = (q, 0) := by
  induction q with
  | nil => rfl
  | cons l rest ih =>
    have h0 : 0 ≤ l.remainingQty := hq l (by simp)
    have hm : min l.remainingQty (0 : ℚ) = 0 := min_eq_right h0
    simp [specConsume, hm, ih (fun x hx => hq x (by simp [hx]))]

/-- C1: with `toSell` initialised to the sell quantity, the matching loop
consumes lots strictly in enqueue (FIFO) order: each lot gives up
`min (remainingQty) (toSell)` (in particular a lot with
`remainingQty = 0` gives up nothing), both `remainingQty` and `toSell`
are decremented by that amount, and consumption stops exactly when
`toSell` reaches `0` or the queue is exhausted — i.e. the loop of the code
(`applySell`) coincides with the walk described by the spec
(`specConsume`). -/
theorem applySell_eq_specConsume (q : List Lot) (t : ℚ)
    (hq : ∀ l ∈ q, 0 ≤ l.remainingQty) (ht : 0 ≤ t) :
    applySell q t = specConsume q t := by
  induction q generalizing t with
  | nil => rfl
  | cons l rest ih =>
    have hrest : ∀ x ∈ rest, 0 ≤ x.remainingQty := fun x hx => hq x (by simp [hx])
    by_cases hpos : 0 < t
    · by_cases hle : l.remainingQty ≤ t
      · have hmin : min l.remainingQty t = l.remainingQty := min_eq_left hle
        have ht' : 0 ≤ t - l.remainingQty := sub_nonneg.mpr hle
        simp [applySell, specConsume, hpos, hle, hmin, ih _ hrest ht', sub_self]
      · have hmin : min l.remainingQty t = t := min_eq_right (not_le.mp hle).le
        simp [applySell, specConsume, hpos, hle, hmin, sub_self,
          specConsume_zero rest hrest]
    · have ht0 : t = 0 := le_antisymm (not_lt.mp hpos) ht
      subst ht0
      rw [applySell_nonpos _ _ hpos, specConsume_zero _ hq]

/-- Witness for C1 at a concrete queue and sell quantity. -/
theorem applySell_eq_specConsume_witness :
    applySell
      [{ scrip := 0, date := 1, segment := "", clientCode := "", buyQty := 5,
         buyPrice := 2, orderNo := "", remainingQty := 5, originalIndex := 0,
         aggregatedTrades := 1 },
       { scrip := 0, date := 2, segment := "", clientCode := "", buyQty := 4,
         buyPrice := 3, orderNo := "", remainingQty := 4, originalIndex := 1,
         aggregatedTrades := 1 }] 7 =
    specConsume
      [{ scrip := 0, date := 1, segment := "", clientCode := "", buyQty := 5,
         buyPrice := 2, orderNo := "", remainingQty := 5, originalIndex := 0,
         aggregatedTrades := 1 },
       { scrip := 0, date := 2, segment := "", clientCode := "", buyQty := 4,
         buyPrice := 3, orderNo := "", remainingQty := 4, originalIndex := 1,
         aggregatedTrades := 1 }] 7 := by
  apply applySell_eq_specConsume
  · intro l hl
    simp only [List.mem_cons, List.mem_singleton, List.not_mem_nil, or_false] at hl
    rcases hl with h | h <;> (subst h; norm_num)
  · norm_num

/-! ### The per-security loop invariant -/

lemma addBuy_pos (r : Row) (hr : 0 < r.buyQty) :
    ∀ d : List DailyBuy, (∀ b ∈ d, 0 < b.buyQty) → ∀ b ∈ addBuy d r, 0 < b.buyQty := by
  intro d
  induction d with
  | nil =>
    intro _ b hb
    simp only [addBuy, List.mem_singleton] at hb
    rw [hb]
    simpa [newBucket] using hr
  | cons c rest ih =>
    intro hd b hb
    by_cases hdate : c.date = r.date
    · simp only [addBuy, if_pos hdate, List.mem_cons] at hb
      rcases hb with hb | hb
      · rw [hb]
        exact add_pos (hd c (by simp)) hr
      · exact hd b (by simp [hb])
    · simp only [addBuy, if_neg hdate, List.mem_cons] at hb
      rcases hb with hb | hb
      · rw [hb]
        exact hd c (by simp)
      · exact ih (fun x hx => hd x (by simp [hx])) b hb

lemma applySell_bounds (q : List Lot) (t : ℚ) (ht : 0 ≤ t)
    (hq : ∀ l ∈ q, 0 ≤ l.remainingQty ∧ l.remainingQty ≤ l.buyQty) :
    ∀ l ∈ (applySell q t).1, 0 ≤ l.remainingQty ∧ l.remainingQty ≤ l.buyQty := by
  induction q generalizing t with
  | nil => intro l hl; simp [applySell] at hl
  | cons c rest ih =>
    intro l hl
    by_cases hpos : 0 < t
    · by_cases hle : c.remainingQty ≤ t
      · simp only [applySell, if_pos hpos, if_pos hle, List.mem_cons] at hl
        rcases hl with hl | hl
        · subst hl
          exact ⟨le_refl 0, le_trans (hq c (by simp)).1 (hq c (by simp)).2⟩
        · exact ih (t - c.remainingQty) (sub_nonneg.mpr hle)
            (fun x hx => hq x (by simp [hx])) l hl
      · simp only [applySell, if_pos hpos, if_neg hle, List.mem_cons] at hl
        rcases hl with hl | hl
        · subst hl
          exact ⟨sub_nonneg.mpr (not_le.mp hle).le,
                 le_trans (sub_le_self _ hpos.le) (hq c (by simp)).2⟩
        · exact hq l (by simp [hl])
    · rw [applySell_nonpos _ _ hpos] at hl
      exact hq l hl

lemma matchQueue_bounds {s : SecState} (hs : Inv s) (r : Row) :
    ∀ l ∈ matchQueue s r, 0 ≤ l.remainingQty ∧ l.remainingQty ≤ l.buyQty := by
  intro l hl
  rcases List.mem_append.mp hl with h | h
  · exact hs.1 l h
  · rcases List.mem_map.mp h with ⟨b, hb, rfl⟩
    have hbm : b ∈ s.daily :=
      List.mem_of_mem_filter ((List.mem_insertionSort _).mp hb)
    exact ⟨(hs.2 b hbm).le, le_refl _⟩

lemma stepTrade_inv {s : SecState} (r : Row) (hs : Inv s) : Inv (stepTrade s r) := by
  by_cases hbuy : 0 < r.buyQty
  · constructor
    · simpa [stepTrade, hbuy] using hs.1
    · intro b hb
      simp only [stepTrade, if_pos hbuy] at hb
      exact addBuy_pos r hbuy s.daily hs.2 b hb
  · by_cases hsell : 0 < r.sellQty
    · constructor
      · intro l hl
        simp only [stepTrade, if_neg hbuy, if_pos hsell] at hl
        exact applySell_bounds _ _ hsell.le (matchQueue_bounds hs r) l hl
      · intro b hb
        simp only [stepTrade, if_neg hbuy, if_pos hsell] at hb
        exact hs.2 b (List.mem_of_mem_filter hb)
    · simpa [stepTrade, hbuy, hsell] using hs

lemma foldl_inv (rows : List Row) : ∀ s : SecState, Inv s → Inv (rows.foldl stepTrade s) := by
  induction rows with
  | nil => intro s hs; exact hs
  | cons r rest ih => intro s hs; exact ih _ (stepTrade_inv r hs)

lemma initState_inv : Inv initState := by
  constructor <;> intro x hx <;> simp [initState] at hx

lemma runSec_inv (rows : List Row) : Inv (runSec rows) :=
  foldl_inv rows initState initState_inv

lemma finishSec_bounds {s : SecState} (hs : Inv s) :
    ∀ l ∈ finishSec s, 0 ≤ l.remainingQty ∧ l.remainingQty ≤ l.buyQty := by
  intro l hl
  rcases List.mem_append.mp hl with h | h
  · exact hs.1 l h
  · rcases List.mem_map.mp h with ⟨b, hb, rfl⟩
    have hbm : b ∈ s.daily := (List.mem_insertionSort _).mp hb
    exact ⟨(hs.2 b hbm).le, le_refl _⟩

/-- C4: for every input stream and every point of processing (every prefix
of events is itself a valid `rows`), every lot — still queued or flushed at
the end — satisfies `0 ≤ remainingQty ≤ originalQty`.  A lot is created
with `remainingQty = originalQty` (`mkLot`), and only sell matching
changes it, never below `0`.  The intermediate queue
`(runSec rows).queue` is a prefix of `finishSec (runSec rows)`, so this
covers the queue at every step. -/
theorem remainingQty_bounds (rows : List Row) (l : Lot)
    (hl : l ∈ finishSec (runSec rows)) :
    0 ≤ l.remainingQty ∧ l.remainingQty ≤ l.buyQty :=
  finishSec_bounds (runSec_inv rows) l hl

/-- Witness for C4: a concrete processed stream with a surviving lot. -/
theorem remainingQty_bounds_witness :
    0 ≤ (mkLot (newBucket
      { scrip := 0, date := 1, segment := "", clientCode := "", buyQty := 5,
        buyPrice := 2, sellQty := 0, sellPrice := 0, idx := 0 })).remainingQty ∧
    (mkLot (newBucket
      { scrip := 0, date := 1, segment := "", clientCode := "", buyQty := 5,
        buyPrice := 2, sellQty := 0, sellPrice := 0, idx := 0 })).remainingQty ≤
    (mkLot (newBucket
      { scrip := 0, date := 1, segment := "", clientCode := "", buyQty := 5,
        buyPrice := 2, sellQty := 0, sellPrice := 0, idx := 0 })).buyQty := by
  apply remainingQty_bounds
    [{ scrip := 0, date := 1, segment := "", clientCode := "", buyQty := 5,
       buyPrice := 2, sellQty := 0, sellPrice := 0, idx := 0 }]
  norm_num [finishSec, runSec, stepTrade, initState, addBuy,
    List.insertionSort, List.orderedInsert]

/-- C10: every pending same-day bucket reachable from any input has
strictly positive cumulative quantity, so the weighted-average division at
flush time is the real division `BuyAmount / BuyQty` and the guarding
`else 0` branch is unreachable. -/
theorem dailyBuys_pos (rows : List Row) (b : DailyBuy)
    (hb : b ∈ (runSec rows).daily) :
    0 < b.buyQty ∧ (mkLot b).buyPrice = b.buyAmount / b.buyQty := by
  have hpos := (runSec_inv rows).2 b hb
  exact ⟨hpos, by simp [mkLot, hpos]⟩

/-- Witness for C10: a concrete pending bucket. -/
theorem dailyBuys_pos_witness :
    0 < (newBucket
      { scrip := 0, date := 1, segment := "", clientCode := "", buyQty := 5,
        buyPrice := 2, sellQty := 0, sellPrice := 0, idx := 0 }).buyQty ∧
    (mkLot (newBucket
      { scrip := 0, date := 1, segment := "", clientCode := "", buyQty := 5,
        buyPrice := 2, sellQty := 0, sellPrice := 0, idx := 0 })).buyPrice =
    (newBucket
      { scrip := 0, date := 1, segment := "", clientCode := "", buyQty := 5,
        buyPrice := 2, sellQty := 0, sellPrice := 0, idx := 0 }).buyAmount /
    (newBucket
      { scrip := 0, date := 1, segment := "", clientCode := "", buyQty := 5,
        buyPrice := 2, sellQty := 0, sellPrice := 0, idx := 0 }).buyQty := by
  apply dailyBuys_pos
    [{ scrip := 0, date := 1, segment := "", clientCode := "", buyQty := 5,
       buyPrice := 2, sellQty := 0, sellPrice := 0, idx := 0 }]
  norm_num [runSec, stepTrade, initState, addBuy]

/-! ### Conservation -/

lemma consumed_append (q q' : List Lot) :
    consumed (q ++ q') = consumed q + consumed q' := by
  simp [consumed]

lemma consumed_map_mkLot (ds : List DailyBuy) : consumed (ds.map mkLot) = 0 := by
  induction ds with
  | nil => rfl
  | cons b rest ih =>
    simp only [List.map_cons, consumed, List.sum_cons] at ih ⊢
    have hb : (mkLot b).buyQty - (mkLot b).remainingQty = 0 := sub_self _
    rw [hb, ih, zero_add]

lemma applySell_consumed (q : List Lot) (t : ℚ) :
    consumed (applySell q t).1 + (applySell q t).2 = consumed q + t := by
  induction q generalizing t with
  | nil => simp [applySell, consumed]
  | cons c rest ih =>
    by_cases hpos : 0 < t
    · by_cases hle : c.remainingQty ≤ t
      · have h := ih (t - c.remainingQty)
        simp only [applySell, if_pos hpos, if_pos hle, consumed, List.map_cons,
          List.sum_cons] at h ⊢
        linarith [h]
      · simp only [applySell, if_pos hpos, if_neg hle, consumed, List.map_cons,
          List.sum_cons]
        ring
    · rw [applySell_nonpos _ _ hpos]

lemma applySell_left_nonneg (q : List Lot) (t : ℚ) (ht : 0 ≤ t) :
    0 ≤ (applySell q t).2 := by
  induction q generalizing t with
  | nil => simpa [applySell] using ht
  | cons c rest ih =>
    by_cases hpos : 0 < t
    · by_cases hle : c.remainingQty ≤ t
      · simp only [applySell, if_pos hpos, if_pos hle]
        exact ih _ (sub_nonneg.mpr hle)
      · simp [applySell, hpos, hle]
    · rw [applySell_nonpos _ _ hpos]
      exact ht

lemma matchQueue_consumed (s : SecState) (r : Row) :
    consumed (matchQueue s r) = consumed s.queue := by
  simp [matchQueue, consumed_append, consumed_map_mkLot]

lemma stepTrade_conservation (s : SecState) (r : Row)
    (hx : ¬ (0 < r.buyQty ∧ 0 < r.sellQty)) :
    consumed (stepTrade s r).queue + totalShortfall (stepTrade s r).shortfalls =
      consumed s.queue + totalShortfall s.shortfalls +
        (if 0 < r.sellQty then r.sellQty else 0) := by
  by_cases hbuy : 0 < r.buyQty
  · have hns : ¬ 0 < r.sellQty := fun hs => hx ⟨hbuy, hs⟩
    simp [stepTrade, hbuy, hns]
  · by_cases hsell : 0 < r.sellQty
    · have hcons := applySell_consumed (matchQueue s r) r.sellQty
      have hmq := matchQueue_consumed s r
      simp only [stepTrade, if_neg hbuy, if_pos hsell]
      by_cases hleft : 0 < (applySell (matchQueue s r) r.sellQty).2
      · simp only [if_pos hleft, totalShortfall, List.map_append, List.sum_append,
          List.map_cons, List.sum_cons, List.map_nil, List.sum_nil]
        simp only [totalShortfall] at *
        linarith [hcons, hmq]
      · have h0 : (applySell (matchQueue s r) r.sellQty).2 = 0 :=
          le_antisymm (not_lt.mp hleft) (applySell_left_nonneg _ _ hsell.le)
        simp only [if_neg hleft, if_pos hsell]
        linarith [hcons, hmq, h0]
    · simp [stepTrade, hbuy, hsell]

lemma foldl_conservation (rows : List Row) :
    ∀ s : SecState, (∀ r ∈ rows, ¬ (0 < r.buyQty ∧ 0 < r.sellQty)) →
      consumed (rows.foldl stepTrade s).queue +
          totalShortfall (rows.foldl stepTrade s).shortfalls =
        consumed s.queue + totalShortfall s.shortfalls + totalSellQty rows := by
  induction rows with
  | nil =>
    intro s _
    simp [totalSellQty]
  | cons r rest ih =>
    intro s hx
    have h1 := stepTrade_conservation s r (hx r (by simp))
    have h2 := ih (stepTrade s r) (fun x hxm => hx x (by simp [hxm]))
    simp only [List.foldl_cons, totalSellQty, List.map_cons, List.sum_cons] at h2 ⊢
    linarith [h1, h2]

/-- C5: for any processed event stream, the total consumed quantity of the
final lots — `Σ (originalQty − remainingQty)` — equals the total sell
quantity of the stream minus the total reported shortfall.  The
hypothesis is the spec's data-model invariant that a row never carries
both a positive buy leg and a positive sell leg. -/
theorem conservation (rows : List Row)
    (hx : ∀ r ∈ rows, ¬ (0 < r.buyQty ∧ 0 < r.sellQty)) :
    consumed (processSecurity rows).1 =
      totalSellQty rows - totalShortfall (processSecurity rows).2 := by
  have h := foldl_conservation rows initState hx
  have hq : consumed (processSecurity rows).1 = consumed (runSec rows).queue := by
    simp [processSecurity, consumed_append, consumed_map_mkLot]
  rw [hq]
  simp only [initState, consumed, totalShortfall, List.map_nil, List.sum_nil,
    runSec, processSecurity] at h ⊢
  linarith [h]

/-- Witness for C5: one buy of 5 followed by a sell of 8 — three shares
short, five consumed. -/
theorem conservation_witness :
    consumed (processSecurity
      [{ scrip := 0, date := 1, segment := "", clientCode := "", buyQty := 5,
         buyPrice := 2, sellQty := 0, sellPrice := 0, idx := 0 },
       { scrip := 0, date := 2, segment := "", clientCode := "", buyQty := 0,
         buyPrice := 0, sellQty := 8, sellPrice := 3, idx := 1 }]).1 =
    totalSellQty
      [{ scrip := 0, date := 1, segment := "", clientCode := "", buyQty := 5,
         buyPrice := 2, sellQty := 0, sellPrice := 0, idx := 0 },
       { scrip := 0, date := 2, segment := "", clientCode := "", buyQty := 0,
         buyPrice := 0, sellQty := 8, sellPrice := 3, idx := 1 }] -
    totalShortfall (processSecurity
      [{ scrip := 0, date := 1, segment := "", clientCode := "", buyQty := 5,
         buyPrice := 2, sellQty := 0, sellPrice := 0, idx := 0 },
       { scrip := 0, date := 2, segment := "", clientCode := "", buyQty := 0,
         buyPrice := 0, sellQty := 8, sellPrice := 3, idx := 1 }]).2 := by
  apply conservation
  intro r hr
  simp only [List.mem_cons, List.not_mem_nil, or_false] at hr
  rcases hr with rfl | rfl <;> norm_num

/-! ### The flush rule of the aggregating variant -/

/-- C2: when a sell event is processed, the pending buckets whose date is
≤ the sell's date are each converted into exactly one lot (unit price =
cumulative amount / cumulative quantity, remaining = original = cumulative
quantity) and appended to the FIFO queue in ascending date order before
the sell is matched against that queue; buckets with a later date remain
pending; and at end of the security's stream every still-pending bucket is
flushed into the queue in ascending date order. -/
theorem flush_spec (s : SecState) (r : Row)
    (hb : ¬ 0 < r.buyQty) (hs : 0 < r.sellQty) :
    ∃ fl fl2 : List DailyBuy,
      fl.Perm (s.daily.filter (fun b => decide (b.date ≤ r.date))) ∧
      fl.Sorted DailyBuy.dateLE ∧
      matchQueue s r = s.queue ++ fl.map mkLot ∧
      (stepTrade s r).queue = (applySell (matchQueue s r) r.sellQty).1 ∧
      (stepTrade s r).daily = s.daily.filter (fun b => decide (r.date < b.date)) ∧
      (∀ b : DailyBuy, 0 < b.buyQty →
        (mkLot b).buyPrice = b.buyAmount / b.buyQty ∧
        (mkLot b).remainingQty = b.buyQty ∧
        (mkLot b).buyQty = b.buyQty ∧ (mkLot b).date = b.date) ∧
      fl2.Perm s.daily ∧ fl2.Sorted DailyBuy.dateLE ∧
      finishSec s = s.queue ++ fl2.map mkLot := by
  refine ⟨List.insertionSort DailyBuy.dateLE
            (s.daily.filter (fun b => decide (b.date ≤ r.date))),
          List.insertionSort DailyBuy.dateLE s.daily,
          List.perm_insertionSort _ _, List.sorted_insertionSort _ _,
          rfl, ?_, ?_, ?_, List.perm_insertionSort _ _,
          List.sorted_insertionSort _ _, rfl⟩
  · simp [stepTrade, hb, hs]
  · simp only [stepTrade, if_neg hb, if_pos hs]
    apply List.filter_congr
    intro b _
    rw [← decide_not]
    exact decide_eq_decide.mpr not_le
  · intro b hpos
    exact ⟨by simp [mkLot, hpos], rfl, rfl, rfl⟩

/-- Witness for C2: one pending bucket eligible, one not. -/
theorem flush_spec_witness :
    ∃ fl fl2 : List DailyBuy,
      fl.Perm ((runSec
        [{ scrip := 0, date := 1, segment := "", clientCode := "", buyQty := 5,
           buyPrice := 2, sellQty := 0, sellPrice := 0, idx := 0 },
         { scrip := 0, date := 3, segment := "", clientCode := "", buyQty := 4,
           buyPrice := 6, sellQty := 0, sellPrice := 0, idx := 1 }]).daily.filter
        (fun b => decide (b.date ≤
          ({ scrip := 0, date := 2, segment := "", clientCode := "", buyQty := 0,
             buyPrice := 0, sellQty := 3, sellPrice := 7, idx := 2 } : Row).date))) ∧
      fl.Sorted DailyBuy.dateLE ∧
      matchQueue (runSec
        [{ scrip := 0, date := 1, segment := "", clientCode := "", buyQty := 5,
           buyPrice := 2, sellQty := 0, sellPrice := 0, idx := 0 },
         { scrip := 0, date := 3, segment := "", clientCode := "", buyQty := 4,
           buyPrice := 6, sellQty := 0, sellPrice := 0, idx := 1 }])
        { scrip := 0, date := 2, segment := "", clientCode := "", buyQty := 0,
          buyPrice := 0, sellQty := 3, sellPrice := 7, idx := 2 } =
        (runSec
        [{ scrip := 0, date := 1, segment := "", clientCode := "", buyQty := 5,
           buyPrice := 2, sellQty := 0, sellPrice := 0, idx := 0 },
         { scrip := 0, date := 3, segment := "", clientCode := "", buyQty := 4,
           buyPrice := 6, sellQty := 0, sellPrice := 0, idx := 1 }]).queue ++
          fl.map mkLot ∧
      (stepTrade (runSec
        [{ scrip := 0, date := 1, segment := "", clientCode := "", buyQty := 5,
           buyPrice := 2, sellQty := 0, sellPrice := 0, idx := 0 },
         { scrip := 0, date := 3, segment := "", clientCode := "", buyQty := 4,
           buyPrice := 6, sellQty := 0, sellPrice := 0, idx := 1 }])
        { scrip := 0, date := 2, segment := "", clientCode := "", buyQty := 0,
          buyPrice := 0, sellQty := 3, sellPrice := 7, idx := 2 }).queue =
        (applySell (matchQueue (runSec
        [{ scrip := 0, date := 1, segment := "", clientCode := "", buyQty := 5,
           buyPrice := 2, sellQty := 0, sellPrice := 0, idx := 0 },
         { scrip := 0, date := 3, segment := "", clientCode := "", buyQty := 4,
           buyPrice := 6, sellQty := 0, sellPrice := 0, idx := 1 }])
        { scrip := 0, date := 2, segment := "", clientCode := "", buyQty := 0,
          buyPrice := 0, sellQty := 3, sellPrice := 7, idx := 2 }) 3).1 ∧
      (stepTrade (runSec
        [{ scrip := 0, date := 1, segment := "", clientCode := "", buyQty := 5,
           buyPrice := 2, sellQty := 0, sellPrice := 0, idx := 0 },
         { scrip := 0, date := 3, segment := "", clientCode := "", buyQty := 4,
           buyPrice := 6, sellQty := 0, sellPrice := 0, idx := 1 }])
        { scrip := 0, date := 2, segment := "", clientCode := "", buyQty := 0,
          buyPrice := 0, sellQty := 3, sellPrice := 7, idx := 2 }).daily =
        (runSec
        [{ scrip := 0, date := 1, segment := "", clientCode := "", buyQty := 5,
           buyPrice := 2, sellQty := 0, sellPrice := 0, idx := 0 },
         { scrip := 0, date := 3, segment := "", clientCode := "", buyQty := 4,
           buyPrice := 6, sellQty := 0, sellPrice := 0, idx := 1 }]).daily.filter
        (fun b => decide (2 < b.date)) ∧
      (∀ b : DailyBuy, 0 < b.buyQty →
        (mkLot b).buyPrice = b.buyAmount / b.buyQty ∧
        (mkLot b).remainingQty = b.buyQty ∧
        (mkLot b).buyQty = b.buyQty ∧ (mkLot b).date = b.date) ∧
      fl2.Perm (runSec
        [{ scrip := 0, date := 1, segment := "", clientCode := "", buyQty := 5,
           buyPrice := 2, sellQty := 0, sellPrice := 0, idx := 0 },
         { scrip := 0, date := 3, segment := "", clientCode := "", buyQty := 4,
           buyPrice := 6, sellQty := 0, sellPrice := 0, idx := 1 }]).daily ∧
      fl2.Sorted DailyBuy.dateLE ∧
      finishSec (runSec
        [{ scrip := 0, date := 1, segment := "", clientCode := "", buyQty := 5,
           buyPrice := 2, sellQty := 0, sellPrice := 0, idx := 0 },
         { scrip := 0, date := 3, segment := "", clientCode := "", buyQty := 4,
           buyPrice := 6, sellQty := 0, sellPrice := 0, idx := 1 }]) =
        (runSec
        [{ scrip := 0, date := 1, segment := "", clientCode := "", buyQty := 5,
           buyPrice := 2, sellQty := 0, sellPrice := 0, idx := 0 },
         { scrip := 0, date := 3, segment := "", clientCode := "", buyQty := 4,
           buyPrice := 6, sellQty := 0, sellPrice := 0, idx := 1 }]).queue ++
          fl2.map mkLot := by
  apply flush_spec <;> norm_num

/-! ### Shortfall handling -/

lemma sumRemQ_cons (c : Lot) (rest : List Lot) :
    sumRemQ (c :: rest) = c.remainingQty + sumRemQ rest := by
  simp [sumRemQ]

lemma applySell_exceeds (q : List Lot) (t : ℚ)
    (hq : ∀ l ∈ q, 0 ≤ l.remainingQty) (h : sumRemQ q < t) :
    (applySell q t).1 = q.map (fun l => { l with remainingQty := 0 }) ∧
    (applySell q t).2 = t - sumRemQ q := by
  induction q generalizing t with
  | nil => simp [applySell, sumRemQ]
  | cons c rest ih =>
    have hrest : ∀ x ∈ rest, 0 ≤ x.remainingQty := fun x hx => hq x (by simp [hx])
    have hsum : 0 ≤ sumRemQ rest := by
      apply List.sum_nonneg
      intro x hx
      rcases List.mem_map.mp hx with ⟨l, hl, rfl⟩
      exact hrest l hl
    have hc : 0 ≤ c.remainingQty := hq c (by simp)
    rw [sumRemQ_cons] at h
    have hpos : 0 < t := by linarith
    have hle : c.remainingQty ≤ t := by linarith
    have h' : sumRemQ rest < t - c.remainingQty := by linarith
    obtain ⟨h1, h2⟩ := ih (t - c.remainingQty) hrest h'
    constructor
    · simp only [applySell, if_pos hpos, if_pos hle, h1, List.map_cons]
    · simp only [applySell, if_pos hpos, if_pos hle, h2, sumRemQ_cons]
      ring

/-- C6: when a sell's quantity strictly exceeds the total remaining
quantity in the queue it is matched against, the matcher appends exactly
one shortfall diagnostic `{security, date, leftover}` carrying the exact
leftover quantity, consumes every lot fully (already-consumed lots stay
consumed), raises no error, and subsequent events — of this security via
the state, of others via their independent runs — are still processed. -/
theorem sell_shortfall (rows : List Row) (r : Row) (rest : List Row)
    (hb : ¬ 0 < r.buyQty) (hs : 0 < r.sellQty)
    (hex : sumRemQ (matchQueue (runSec rows) r) < r.sellQty) :
    (stepTrade (runSec rows) r).shortfalls =
      (runSec rows).shortfalls ++
        [⟨r.scrip, r.date, r.sellQty - sumRemQ (matchQueue (runSec rows) r)⟩] ∧
    (stepTrade (runSec rows) r).queue =
      (matchQueue (runSec rows) r).map (fun l => { l with remainingQty := 0 }) ∧
    runSec (rows ++ r :: rest) = rest.foldl stepTrade (stepTrade (runSec rows) r) := by
  have hq : ∀ l ∈ matchQueue (runSec rows) r, 0 ≤ l.remainingQty :=
    fun l hl => (matchQueue_bounds (runSec_inv rows) r l hl).1
  obtain ⟨h1, h2⟩ := applySell_exceeds _ _ hq hex
  have hleft : 0 < (applySell (matchQueue (runSec rows) r) r.sellQty).2 := by
    rw [h2]
    linarith [hex]
  refine ⟨?_, ?_, ?_⟩
  · have hsf : (stepTrade (runSec rows) r).shortfalls =
        (runSec rows).shortfalls ++
          [⟨r.scrip, r.date, (applySell (matchQueue (runSec rows) r) r.sellQty).2⟩] := by
      simp [stepTrade, hb, hs, hleft]
    rw [hsf, h2]
  · simp [stepTrade, hb, hs, h1]
  · simp [runSec, List.foldl_append]

/-- Witness for C6: a sell of 8 against a single lot of 5. -/
theorem sell_shortfall_witness :
    (stepTrade (runSec
      [{ scrip := 0, date := 1, segment := "", clientCode := "", buyQty := 5,
         buyPrice := 2, sellQty := 0, sellPrice := 0, idx := 0 }])
      { scrip := 0, date := 2, segment := "", clientCode := "", buyQty := 0,
        buyPrice := 0, sellQty := 8, sellPrice := 3, idx := 1 }).shortfalls =
      (runSec
      [{ scrip := 0, date := 1, segment := "", clientCode := "", buyQty := 5,
         buyPrice := 2, sellQty := 0, sellPrice := 0, idx := 0 }]).shortfalls ++
        [⟨0, 2, 8 - sumRemQ (matchQueue (runSec
          [{ scrip := 0, date := 1, segment := "", clientCode := "", buyQty := 5,
             buyPrice := 2, sellQty := 0, sellPrice := 0, idx := 0 }])
          { scrip := 0, date := 2, segment := "", clientCode := "", buyQty := 0,
            buyPrice := 0, sellQty := 8, sellPrice := 3, idx := 1 })⟩] ∧
    (stepTrade (runSec
      [{ scrip := 0, date := 1, segment := "", clientCode := "", buyQty := 5,
         buyPrice := 2, sellQty := 0, sellPrice := 0, idx := 0 }])
      { scrip := 0, date := 2, segment := "", clientCode := "", buyQty := 0,
        buyPrice := 0, sellQty := 8, sellPrice := 3, idx := 1 }).queue =
      (matchQueue (runSec
      [{ scrip := 0, date := 1, segment := "", clientCode := "", buyQty := 5,
         buyPrice := 2, sellQty := 0, sellPrice := 0, idx := 0 }])
      { scrip := 0, date := 2, segment := "", clientCode := "", buyQty := 0,
        buyPrice := 0, sellQty := 8, sellPrice := 3, idx := 1 }).map
        (fun l => { l with remainingQty := 0 }) ∧
    runSec
      ([{ scrip := 0, date := 1, segment := "", clientCode := "", buyQty := 5,
          buyPrice := 2, sellQty := 0, sellPrice := 0, idx := 0 }] ++
        { scrip := 0, date := 2, segment := "", clientCode := "", buyQty := 0,
          buyPrice := 0, sellQty := 8, sellPrice := 3, idx := 1 } :: []) =
      List.foldl stepTrade (stepTrade (runSec
        [{ scrip := 0, date := 1, segment := "", clientCode := "", buyQty := 5,
           buyPrice := 2, sellQty := 0, sellPrice := 0, idx := 0 }])
        { scrip := 0, date := 2, segment := "", clientCode := "", buyQty := 0,
          buyPrice := 0, sellQty := 8, sellPrice := 3, idx := 1 }) [] := by
  apply sell_shortfall
  · norm_num
  · norm_num
  · norm_num [matchQueue, sumRemQ, runSec, stepTrade, initState, addBuy, newBucket,
      mkLot, List.insertionSort, List.orderedInsert]

/-! ### The `elif` between the buy and the sell branch -/

/-- Counterexample to C7 as stated: a row carrying a positive sell
quantity does NOT always trigger the flush-and-match path.  After a buy on
day 1, a row on day 2 carrying both a positive buy (2) and a positive
sell (3) goes down the buy branch (`elif`): nothing is enqueued or
matched, and the day-1 bucket — eligible for flushing — stays pending. -/
theorem elif_counterexample :
    0 < (⟨0, 2, "", "", 2, 4, 3, 5, 1⟩ : Row).sellQty ∧
    (stepTrade (runSec [⟨0, 1, "", "", 5, 2, 0, 0, 0⟩])
      ⟨0, 2, "", "", 2, 4, 3, 5, 1⟩).queue = [] ∧
    ((stepTrade (runSec [⟨0, 1, "", "", 5, 2, 0, 0, 0⟩])
      ⟨0, 2, "", "", 2, 4, 3, 5, 1⟩).daily.map DailyBuy.date) = [1, 2] := by
  norm_num [runSec, stepTrade, initState, addBuy, newBucket]

/-- C7 amended: the buy and the sell branch are mutually exclusive
(`elif`).  A row with a positive buy quantity is processed only as a buy —
its sell leg, if positive, is ignored (no flush, no matching, queue and
shortfalls untouched); a row with a positive sell quantity and a
non-positive buy quantity triggers the flush-and-match path.  Hence no row
is processed as both a buy and a sell. -/
theorem stepTrade_elif (s : SecState) (r : Row) :
    (0 < r.buyQty →
      (stepTrade s r).queue = s.queue ∧
      (stepTrade s r).daily = addBuy s.daily r ∧
      (stepTrade s r).shortfalls = s.shortfalls) ∧
    (¬ 0 < r.buyQty → 0 < r.sellQty →
      (stepTrade s r).queue = (applySell (matchQueue s r) r.sellQty).1 ∧
      (stepTrade s r).daily =
        s.daily.filter (fun b => ! decide (b.date ≤ r.date))) := by
  constructor
  · intro hbuy
    refine ⟨?_, ?_, ?_⟩ <;> simp [stepTrade, hbuy]
  · intro hbuy hsell
    refine ⟨?_, ?_⟩ <;> simp [stepTrade, hbuy, hsell]

/-- Witness for the amended C7 at the counterexample's both-legs row. -/
theorem stepTrade_elif_witness :
    0 < (⟨0, 2, "", "", 2, 4, 3, 5, 1⟩ : Row).buyQty ∧
    ((stepTrade (runSec [⟨0, 1, "", "", 5, 2, 0, 0, 0⟩])
       ⟨0, 2, "", "", 2, 4, 3, 5, 1⟩).queue =
        (runSec [⟨0, 1, "", "", 5, 2, 0, 0, 0⟩]).queue ∧
     (stepTrade (runSec [⟨0, 1, "", "", 5, 2, 0, 0, 0⟩])
       ⟨0, 2, "", "", 2, 4, 3, 5, 1⟩).daily =
        addBuy (runSec [⟨0, 1, "", "", 5, 2, 0, 0, 0⟩]).daily
          ⟨0, 2, "", "", 2, 4, 3, 5, 1⟩ ∧
     (stepTrade (runSec [⟨0, 1, "", "", 5, 2, 0, 0, 0⟩])
       ⟨0, 2, "", "", 2, 4, 3, 5, 1⟩).shortfalls =
        (runSec [⟨0, 1, "", "", 5, 2, 0, 0, 0⟩]).shortfalls) :=
  ⟨by norm_num,
   (stepTrade_elif (runSec [⟨0, 1, "", "", 5, 2, 0, 0, 0⟩])
     ⟨0, 2, "", "", 2, 4, 3, 5, 1⟩).1 (by norm_num)⟩

/-! ### Daily aggregation -/

lemma addBuy_dates_subset (r : Row) :
    ∀ (d : List DailyBuy) (x : Nat), x ∈ (addBuy d r).map DailyBuy.date →
      x ∈ d.map DailyBuy.date ∨ x = r.date := by
  intro d
  induction d with
  | nil =>
    intro x hx
    simp only [addBuy, List.map_cons, List.map_nil, List.mem_singleton] at hx
    right
    simpa [newBucket] using hx
  | cons c rest ih =>
    intro x hx
    by_cases hdate : c.date = r.date
    · simp only [addBuy, if_pos hdate, List.map_cons, List.mem_cons] at hx
      rcases hx with hx | hx
      · left
        simp only [List.map_cons, List.mem_cons]
        left
        exact hx
      · left
        simp only [List.map_cons, List.mem_cons]
        right
        exact hx
    · simp only [addBuy, if_neg hdate, List.map_cons, List.mem_cons] at hx
      rcases hx with hx | hx
      · left
        simp only [List.map_cons, List.mem_cons]
        left
        exact hx
      · rcases ih x hx with h | h
        · left
          simp only [List.map_cons, List.mem_cons]
          right
          exact h
        · right
          exact h

lemma addBuy_dates_nodup (r : Row) :
    ∀ d : List DailyBuy, (d.map DailyBuy.date).Nodup →
      ((addBuy d r).map DailyBuy.date).Nodup := by
  intro d
  induction d with
  | nil =>
    intro _
    simp [addBuy, newBucket]
  | cons c rest ih =>
    intro hnd
    simp only [List.map_cons, List.nodup_cons] at hnd
    by_cases hdate : c.date = r.date
    · simp only [addBuy, if_pos hdate, List.map_cons, List.nodup_cons]
      exact ⟨hnd.1, hnd.2⟩
    · simp only [addBuy, if_neg hdate, List.map_cons, List.nodup_cons]
      refine ⟨?_, ih hnd.2⟩
      intro hmem
      rcases addBuy_dates_subset r rest c.date hmem with h | h
      · exact hnd.1 h
      · exact hdate h

lemma stepTrade_dates_nodup (s : SecState) (r : Row)
    (h : (s.daily.map DailyBuy.date).Nodup) :
    ((stepTrade s r).daily.map DailyBuy.date).Nodup := by
  by_cases hbuy : 0 < r.buyQty
  · simp only [stepTrade, if_pos hbuy]
    exact addBuy_dates_nodup r s.daily h
  · by_cases hsell : 0 < r.sellQty
    · simp only [stepTrade, if_neg hbuy, if_pos hsell]
      exact h.sublist ((List.filter_sublist _).map _)
    · simpa [stepTrade, hbuy, hsell] using h

lemma runSec_dates_nodup (rows : List Row) :
    ((runSec rows).daily.map DailyBuy.date).Nodup := by
  suffices h : ∀ s : SecState, (s.daily.map DailyBuy.date).Nodup →
      ((rows.foldl stepTrade s).daily.map DailyBuy.date).Nodup by
    exact h initState (by simp [initState])
  induction rows with
  | nil => intro s hs; exact hs
  | cons r rest ih => intro s hs; exact ih _ (stepTrade_dates_nodup s r hs)

lemma foldl_buys (bs : List Row) :
    ∀ s : SecState, (∀ r ∈ bs, 0 < r.buyQty) →
      bs.foldl stepTrade s = { s with daily := bs.foldl addBuy s.daily } := by
  induction bs with
  | nil => intro s _; rfl
  | cons r rest ih =>
    intro s hb
    have hr : 0 < r.buyQty := hb r (by simp)
    simp only [List.foldl_cons]
    rw [show stepTrade s r = { s with daily := addBuy s.daily r } by
      simp [stepTrade, hr]]
    exact ih _ (fun x hx => hb x (by simp [hx]))

lemma foldl_addBuy_same (bs : List Row) :
    ∀ b : DailyBuy, (∀ r ∈ bs, r.date = b.date) →
      ∃ tr li, bs.foldl addBuy [b] =
        [{ scrip := b.scrip, date := b.date, segment := b.segment,
           clientCode := b.clientCode,
           buyQty := b.buyQty + totalBuyQty bs,
           buyAmount := b.buyAmount + totalBuyAmount bs,
           trades := tr, lastIndex := li }] := by
  induction bs with
  | nil =>
    intro b _
    refine ⟨b.trades, b.lastIndex, ?_⟩
    simp [totalBuyQty, totalBuyAmount]
  | cons r rest ih =>
    intro b hd
    have hr : r.date = b.date := hd r (by simp)
    simp only [List.foldl_cons]
    rw [show addBuy [b] r = [{ b with
          buyQty := b.buyQty + r.buyQty,
          buyAmount := b.buyAmount + r.buyQty * r.buyPrice,
          trades := b.trades ++ [r.idx],
          lastIndex := r.idx }] by
      simp [addBuy, hr.symm]]
    obtain ⟨tr, li, h⟩ := ih { b with
          buyQty := b.buyQty + r.buyQty,
          buyAmount := b.buyAmount + r.buyQty * r.buyPrice,
          trades := b.trades ++ [r.idx],
          lastIndex := r.idx } (fun x hx => hd x (by simp [hx]))
    refine ⟨tr, li, ?_⟩
    rw [h]
    simp only [totalBuyQty, totalBuyAmount, List.map_cons, List.sum_cons,
      List.cons.injEq, and_true, DailyBuy.mk.injEq, true_and]
    constructor <;> ring

/-- C8 amended: the pending buckets hold at most one bucket per calendar
date at every point, and a nonempty run of buy events all sharing one
security and one date, not interrupted by any sell, produces exactly one
synthetic lot whose unit price is the quantity-weighted average of the
contributing buys.  (As stated, C8 is false: once a sell flushes a date's
bucket, a later buy on the same date opens a fresh bucket, so the queue
can end up holding two lots for the same security and date — see the
counterexample.) -/
theorem aggregation_amended (rows : List Row) (c d : Nat) (r0 : Row) (bs : List Row)
    (hb : ∀ r ∈ r0 :: bs, 0 < r.buyQty ∧ r.date = d ∧ r.scrip = c) :
    (runSec rows).daily.Pairwise (fun a b => a.date ≠ b.date) ∧
    ∃ lot : Lot, finishSec (runSec (r0 :: bs)) = [lot] ∧ lot.scrip = c ∧
      lot.date = d ∧ lot.buyQty = totalBuyQty (r0 :: bs) ∧
      lot.remainingQty = totalBuyQty (r0 :: bs) ∧
      lot.buyPrice = totalBuyAmount (r0 :: bs) / totalBuyQty (r0 :: bs) := by
  constructor
  · have h := runSec_dates_nodup rows
    rw [List.Nodup, List.pairwise_map] at h
    exact h
  · have hrun : runSec (r0 :: bs) =
        { initState with daily := (r0 :: bs).foldl addBuy initState.daily } :=
      foldl_buys (r0 :: bs) initState (fun r hr => (hb r hr).1)
    have hd0 : (newBucket r0).date = d := (hb r0 (by simp)).2.1
    obtain ⟨tr, li, hfold⟩ := foldl_addBuy_same bs (newBucket r0)
      (fun x hx => ((hb x (by simp [hx])).2.1).trans hd0.symm)
    have hdaily : (r0 :: bs).foldl addBuy initState.daily =
        [{ scrip := (newBucket r0).scrip, date := (newBucket r0).date,
           segment := (newBucket r0).segment,
           clientCode := (newBucket r0).clientCode,
           buyQty := (newBucket r0).buyQty + totalBuyQty bs,
           buyAmount := (newBucket r0).buyAmount + totalBuyAmount bs,
           trades := tr, lastIndex := li }] := by
      simpa [initState, addBuy] using hfold
    have hqpos : 0 < (newBucket r0).buyQty + totalBuyQty bs := by
      have h0 : 0 < r0.buyQty := (hb r0 (by simp)).1
      have hrest : 0 ≤ totalBuyQty bs := by
        apply List.sum_nonneg
        intro x hx
        rcases List.mem_map.mp hx with ⟨rr, hrr, rfl⟩
        exact (hb rr (by simp [hrr])).1.le
      simp only [newBucket]
      linarith
    refine ⟨mkLot { scrip := (newBucket r0).scrip,
                    date := (newBucket r0).date,
                    segment := (newBucket r0).segment,
                    clientCode := (newBucket r0).clientCode,
                    buyQty := (newBucket r0).buyQty + totalBuyQty bs,
                    buyAmount := (newBucket r0).buyAmount + totalBuyAmount bs,
                    trades := tr, lastIndex := li }, ?_, ?_, ?_, ?_, ?_, ?_⟩
    · rw [finishSec, hrun, hdaily]
      rfl
    · exact (hb r0 (by simp)).2.2
    · exact hd0
    · simp [mkLot, newBucket, totalBuyQty]
    · simp [mkLot, newBucket, totalBuyQty]
    · simp only [mkLot, if_pos hqpos]
      simp [newBucket, totalBuyQty, totalBuyAmount]

/-- Counterexample to C8 as stated: buy 5 on day 1, sell 1 on day 1
(flushes the day-1 bucket into the queue), then buy 7 on day 1 again — a
chronologically ordered stream after which the queue holds two distinct
lots for the same security and the same date, and the two same-day buys
were not merged. -/
theorem aggregation_counterexample :
    ((processSecurity [⟨0, 1, "", "", 5, 10, 0, 0, 0⟩,
                       ⟨0, 1, "", "", 0, 0, 1, 0, 1⟩,
                       ⟨0, 1, "", "", 7, 20, 0, 0, 2⟩]).1.map
      (fun l => (l.scrip, l.date, l.remainingQty))) = [(0, 1, 4), (0, 1, 7)] := by
  norm_num [processSecurity, runSec, stepTrade, matchQueue, addBuy, newBucket, mkLot,
    applySell, initState, DailyBuy.dateLE, List.insertionSort, List.orderedInsert]

/-- Witness for the amended C8: the spec's own aggregation example — two
same-day buys 10@100 and 20@130 merge into one lot of 30 priced
(10·100 + 20·130)/30. -/
theorem aggregation_amended_witness :
    (runSec []).daily.Pairwise (fun a b => a.date ≠ b.date) ∧
    ∃ lot : Lot, finishSec (runSec [⟨0, 1, "", "", 10, 100, 0, 0, 0⟩,
                                    ⟨0, 1, "", "", 20, 130, 0, 0, 1⟩]) = [lot] ∧
      lot.scrip = 0 ∧ lot.date = 1 ∧
      lot.buyQty = totalBuyQty [⟨0, 1, "", "", 10, 100, 0, 0, 0⟩,
                                ⟨0, 1, "", "", 20, 130, 0, 0, 1⟩] ∧
      lot.remainingQty = totalBuyQty [⟨0, 1, "", "", 10, 100, 0, 0, 0⟩,
                                      ⟨0, 1, "", "", 20, 130, 0, 0, 1⟩] ∧
      lot.buyPrice = totalBuyAmount [⟨0, 1, "", "", 10, 100, 0, 0, 0⟩,
                                     ⟨0, 1, "", "", 20, 130, 0, 0, 1⟩] /
        totalBuyQty [⟨0, 1, "", "", 10, 100, 0, 0, 0⟩,
                     ⟨0, 1, "", "", 20, 130, 0, 0, 1⟩] := by
  apply aggregation_amended
  intro r hr
  simp only [List.mem_cons, List.not_mem_nil, or_false] at hr
  rcases hr with rfl | rfl <;> norm_num

/-! ### Shape of the output -/

lemma filter_flatten_lots (p : Lot → Bool) :
    ∀ L : List (List Lot), L.flatten.filter p = (L.map (List.filter p)).flatten := by
  intro L
  induction L with
  | nil => rfl
  | cons x xs ih => simp [List.filter_append, ih]

/-- C3: the output of the whole run is exactly the surviving lots
(`remainingQty > 0`) of every processed security, re-sorted into original
row insertion order by each lot's originating `Original_Index` (not FIFO
order), and every output row carries
`RemainingCost = RemainingQty × BuyPrice`. -/
theorem output_spec (rows : List Row) :
    ∃ lots : List Lot,
      lots.Perm (remainingPurchases rows) ∧
      lots.Sorted Lot.idxLE ∧
      processAll rows = lots.map toResultRow ∧
      (processAll rows).Sorted
        (fun a b : ResultRow => a.originalIndex ≤ b.originalIndex) ∧
      (remainingPurchases rows).Perm
        ((allLots rows).filter (fun l => decide (0 < l.remainingQty))) ∧
      (∀ row ∈ processAll rows,
        row.remainingCost = row.remainingQty * row.buyPrice ∧
        0 < row.remainingQty) := by
  refine ⟨List.insertionSort Lot.idxLE (remainingPurchases rows),
    List.perm_insertionSort _ _, List.sorted_insertionSort _ _, rfl, ?_, ?_, ?_⟩
  · have h := List.sorted_insertionSort Lot.idxLE (remainingPurchases rows)
    exact List.pairwise_map.mpr h
  · rw [remainingPurchases, allLots, filter_flatten_lots, List.map_map]
    exact List.Perm.refl _
  · intro row hrow
    rcases List.mem_map.mp hrow with ⟨l, hl, rfl⟩
    refine ⟨rfl, ?_⟩
    have hmem : l ∈ remainingPurchases rows := (List.mem_insertionSort _).mp hl
    rw [remainingPurchases] at hmem
    rcases List.mem_flatten.mp hmem with ⟨sub, hsub, hlsub⟩
    rcases List.mem_map.mp hsub with ⟨c, _, rfl⟩
    have hp := List.of_mem_filter hlsub
    simpa using of_decide_eq_true hp

/-! ### Exclusion of out-of-order securities -/

lemma firstOccur_mem : ∀ (l : List Nat) (x : Nat), x ∈ firstOccur l ↔ x ∈ l := by
  intro l
  induction l with
  | nil => intro x; simp [firstOccur]
  | cons c rest ih =>
    intro x
    simp only [firstOccur, List.mem_cons, List.mem_filter]
    constructor
    · rintro (rfl | ⟨hx, _⟩)
      · exact Or.inl rfl
      · exact Or.inr ((ih x).mp hx)
    · rintro (rfl | hx)
      · exact Or.inl rfl
      · by_cases hxc : x = c
        · exact Or.inl hxc
        · exact Or.inr ⟨(ih x).mpr hx, by simp [hxc]⟩

lemma firstOccur_nodup : ∀ l : List Nat, (firstOccur l).Nodup := by
  intro l
  induction l with
  | nil => simp [firstOccur]
  | cons c rest ih =>
    simp only [firstOccur, List.nodup_cons]
    refine ⟨?_, ih.filter _⟩
    intro hc
    have := (List.mem_filter.mp hc).2
    simp at this

lemma applySell_map_scrip (q : List Lot) (t : ℚ) :
    ((applySell q t).1).map Lot.scrip = q.map Lot.scrip := by
  induction q generalizing t with
  | nil => simp [applySell]
  | cons c rest ih =>
    by_cases hpos : 0 < t
    · by_cases hle : c.remainingQty ≤ t
      · simp only [applySell, if_pos hpos, if_pos hle, List.map_cons, ih]
      · simp only [applySell, if_pos hpos, if_neg hle, List.map_cons]
    · rw [applySell_nonpos _ _ hpos]

lemma addBuy_scrip (c : Nat) (r : Row) (hr : r.scrip = c) :
    ∀ d : List DailyBuy, (∀ b ∈ d, b.scrip = c) → ∀ b ∈ addBuy d r, b.scrip = c := by
  intro d
  induction d with
  | nil =>
    intro _ b hb
    simp only [addBuy, List.mem_singleton] at hb
    rw [hb]
    simpa [newBucket] using hr
  | cons cb rest ih =>
    intro hd b hb
    by_cases hdate : cb.date = r.date
    · simp only [addBuy, if_pos hdate, List.mem_cons] at hb
      rcases hb with hb | hb
      · rw [hb]
        exact hd cb (by simp)
      · exact hd b (by simp [hb])
    · simp only [addBuy, if_neg hdate, List.mem_cons] at hb
      rcases hb with hb | hb
      · rw [hb]
        exact hd cb (by simp)
      · exact ih (fun x hx => hd x (by simp [hx])) b hb

lemma matchQueue_scrip (c : Nat) {s : SecState} (r : Row)
    (h1 : ∀ l ∈ s.queue, l.scrip = c) (h2 : ∀ b ∈ s.daily, b.scrip = c) :
    ∀ l ∈ matchQueue s r, l.scrip = c := by
  intro l hl
  rcases List.mem_append.mp hl with h | h
  · exact h1 l h
  · rcases List.mem_map.mp h with ⟨b, hb, rfl⟩
    exact h2 b (List.mem_of_mem_filter ((List.mem_insertionSort _).mp hb))

lemma stepTrade_scrip (c : Nat) (s : SecState) (r : Row) (hr : r.scrip = c)
    (h1 : ∀ l ∈ s.queue, l.scrip = c) (h2 : ∀ b ∈ s.daily, b.scrip = c) :
    (∀ l ∈ (stepTrade s r).queue, l.scrip = c) ∧
    (∀ b ∈ (stepTrade s r).daily, b.scrip = c) := by
  by_cases hbuy : 0 < r.buyQty
  · constructor
    · simpa [stepTrade, hbuy] using h1
    · intro b hb
      simp only [stepTrade, if_pos hbuy] at hb
      exact addBuy_scrip c r hr s.daily h2 b hb
  · by_cases hsell : 0 < r.sellQty
    · constructor
      · intro l hl
        simp only [stepTrade, if_neg hbuy, if_pos hsell] at hl
        have hmap := applySell_map_scrip (matchQueue s r) r.sellQty
        have hin : l.scrip ∈ ((applySell (matchQueue s r) r.sellQty).1).map Lot.scrip :=
          List.mem_map_of_mem _ hl
        rw [hmap] at hin
        rcases List.mem_map.mp hin with ⟨l0, hl0, heq⟩
        rw [← heq]
        exact matchQueue_scrip c r h1 h2 l0 hl0
      · intro b hb
        simp only [stepTrade, if_neg hbuy, if_pos hsell] at hb
        exact h2 b (List.mem_of_mem_filter hb)
    · constructor
      · simpa [stepTrade, hbuy, hsell] using h1
      · simpa [stepTrade, hbuy, hsell] using h2

lemma foldl_scrip (c : Nat) :
    ∀ (rows : List Row) (s : SecState),
      (∀ r ∈ rows, r.scrip = c) →
      (∀ l ∈ s.queue, l.scrip = c) → (∀ b ∈ s.daily, b.scrip = c) →
      (∀ l ∈ (rows.foldl stepTrade s).queue, l.scrip = c) ∧
      (∀ b ∈ (rows.foldl stepTrade s).daily, b.scrip = c) := by
  intro rows
  induction rows with
  | nil => intro s _ hq hd; exact ⟨hq, hd⟩
  | cons r rest ih =>
    intro s hrs hq hd
    have hstep := stepTrade_scrip c s r (hrs r (by simp)) hq hd
    exact ih _ (fun x hx => hrs x (by simp [hx])) hstep.1 hstep.2

lemma runSec_scrip (c : Nat) (rows : List Row) (hr : ∀ r ∈ rows, r.scrip = c) :
    (∀ l ∈ (runSec rows).queue, l.scrip = c) ∧
    (∀ b ∈ (runSec rows).daily, b.scrip = c) :=
  foldl_scrip c rows initState hr (by simp [initState]) (by simp [initState])

lemma processSecurity_scrip (c : Nat) (rows : List Row)
    (hr : ∀ r ∈ rows, r.scrip = c) :
    ∀ l ∈ (processSecurity rows).1, l.scrip = c := by
  intro l hl
  rcases List.mem_append.mp hl with h | h
  · exact (runSec_scrip c rows hr).1 l h
  · rcases List.mem_map.mp h with ⟨b, hb, rfl⟩
    exact (runSec_scrip c rows hr).2 b ((List.mem_insertionSort _).mp hb)

lemma rowsFor_scrip (rows : List Row) (c : Nat) :
    ∀ r ∈ rowsFor rows c, r.scrip = c := by
  intro r hrc
  have := List.of_mem_filter hrc
  exact of_decide_eq_true this

lemma flatten_filter_eq (c : Nat) :
    ∀ (cs : List Nat) (f : Nat → List Lot), cs.Nodup →
      (∀ c2 ∈ cs, ∀ l ∈ f c2, l.scrip = c2) → c ∈ cs →
      (cs.map f).flatten.filter (fun l => decide (l.scrip = c)) = f c := by
  intro cs
  induction cs with
  | nil =>
    intro f _ _ hc
    simp at hc
  | cons c0 rest ih =>
    intro f hnd hall hc
    simp only [List.map_cons, List.flatten_cons, List.filter_append]
    by_cases hc0 : c0 = c
    · subst hc0
      have h1 : (f c0).filter (fun l => decide (l.scrip = c0)) = f c0 :=
        List.filter_eq_self.mpr (fun l hl => by simp [hall c0 (by simp) l hl])
      have hnotin : c0 ∉ rest := (List.nodup_cons.mp hnd).1
      have h2 : (rest.map f).flatten.filter (fun l => decide (l.scrip = c0)) = [] := by
        rw [List.filter_eq_nil_iff]
        intro l hl
        rcases List.mem_flatten.mp hl with ⟨sub, hsub, hlsub⟩
        rcases List.mem_map.mp hsub with ⟨c2, hc2, rfl⟩
        have hlc2 := hall c2 (by simp [hc2]) l hlsub
        simp only [hlc2, decide_eq_true_eq]
        intro heq
        exact hnotin (heq ▸ hc2)
      rw [h1, h2, List.append_nil]
    · have hcr : c ∈ rest := by
        rcases List.mem_cons.mp hc with h | h
        · exact absurd h.symm hc0
        · exact h
      have h1 : (f c0).filter (fun l => decide (l.scrip = c)) = [] := by
        rw [List.filter_eq_nil_iff]
        intro l hl
        have := hall c0 (by simp) l hl
        simp [this, hc0]
      rw [h1, List.nil_append]
      exact ih f (List.nodup_cons.mp hnd).2 (fun c2 h2 => hall c2 (by simp [h2])) hcr

/-- C9: a security whose event dates are not non-decreasing is excluded
entirely from matching: it is surfaced in the warning list, contributes no
rows to the output, and is not among the processed securities; a security
is processed iff it occurs in the input and is chronologically ordered,
and each processed security's surviving lots appear in the output exactly
as its own isolated run produces them. -/
theorem unsorted_excluded (rows : List Row) (c : Nat)
    (hc : c ∈ rows.map Row.scrip) (hbad : sortedCompany rows c = false) :
    c ∈ unsortedCompanies rows ∧
    (∀ row ∈ processAll rows, row.scrip ≠ c) ∧
    (∀ c2 : Nat, c2 ∈ companiesToProcess rows ↔
      c2 ∈ rows.map Row.scrip ∧ sortedCompany rows c2 = true) ∧
    (∀ c2 ∈ companiesToProcess rows,
      ((processAll rows).filter (fun row => decide (row.scrip = c2))).Perm
        (((processSecurity (rowsFor rows c2)).1.filter
          (fun l => decide (0 < l.remainingQty))).map toResultRow)) := by
  have hmemU : ∀ c2 : Nat, c2 ∈ unsortedCompanies rows ↔
      c2 ∈ rows.map Row.scrip ∧ sortedCompany rows c2 = false := by
    intro c2
    simp [unsortedCompanies, List.mem_filter, firstOccur_mem]
  have hmemP : ∀ c2 : Nat, c2 ∈ companiesToProcess rows ↔
      c2 ∈ rows.map Row.scrip ∧ sortedCompany rows c2 = true := by
    intro c2
    constructor
    · intro hm
      have h1 := List.mem_filter.mp hm
      have hin : c2 ∈ rows.map Row.scrip := (firstOccur_mem _ _).mp h1.1
      have hnu : c2 ∉ unsortedCompanies rows := by
        have h2 := h1.2
        simp only [Bool.not_eq_true'] at h2
        simpa using h2
      refine ⟨hin, ?_⟩
      by_cases hs : sortedCompany rows c2 = true
      · exact hs
      · exact absurd ((hmemU c2).mpr ⟨hin, by simpa using hs⟩) hnu
    · rintro ⟨hm, hs⟩
      apply List.mem_filter.mpr
      refine ⟨(firstOccur_mem _ _).mpr hm, ?_⟩
      simp only [Bool.not_eq_true']
      have hnu : c2 ∉ unsortedCompanies rows := by
        intro hu
        have h2 := ((hmemU c2).mp hu).2
        rw [hs] at h2
        simp at h2
      simpa using hnu
  have hscripRP : ∀ l ∈ remainingPurchases rows, l.scrip ∈ companiesToProcess rows := by
    intro l hl
    rw [remainingPurchases] at hl
    rcases List.mem_flatten.mp hl with ⟨sub, hsub, hlsub⟩
    rcases List.mem_map.mp hsub with ⟨c2, hc2, rfl⟩
    have : l.scrip = c2 :=
      processSecurity_scrip c2 (rowsFor rows c2) (rowsFor_scrip rows c2) l
        (List.mem_of_mem_filter hlsub)
    rw [this]
    exact hc2
  refine ⟨?_, ?_, hmemP, ?_⟩
  · exact (hmemU c).mpr ⟨hc, hbad⟩
  · intro row hrow heq
    rcases List.mem_map.mp hrow with ⟨l, hl, rfl⟩
    have hlRP : l ∈ remainingPurchases rows := (List.mem_insertionSort _).mp hl
    have hmem := hscripRP l hlRP
    have : l.scrip = c := heq
    rw [this] at hmem
    have h2 := ((hmemP c).mp hmem).2
    rw [hbad] at h2
    simp at h2
  · intro c2 hc2
    have hstep1 : (processAll rows).filter (fun row => decide (row.scrip = c2)) =
        ((List.insertionSort Lot.idxLE (remainingPurchases rows)).filter
          (fun l => decide (l.scrip = c2))).map toResultRow := by
      rw [processAll, List.filter_map]
      apply congrArg
      apply List.filter_congr
      intro l _
      rfl
    rw [hstep1]
    apply List.Perm.map
    have hperm : List.Perm
        ((List.insertionSort Lot.idxLE (remainingPurchases rows)).filter
          (fun l => decide (l.scrip = c2)))
        ((remainingPurchases rows).filter (fun l => decide (l.scrip = c2))) :=
      (List.perm_insertionSort _ _).filter _
    have hflt : (remainingPurchases rows).filter (fun l => decide (l.scrip = c2)) =
        (processSecurity (rowsFor rows c2)).1.filter
          (fun l => decide (0 < l.remainingQty)) := by
      rw [remainingPurchases]
      apply flatten_filter_eq c2 (companiesToProcess rows)
        (fun c3 => (processSecurity (rowsFor rows c3)).1.filter
          (fun l => decide (0 < l.remainingQty)))
        ((firstOccur_nodup _).filter _)
        (fun c3 _ l hl =>
          processSecurity_scrip c3 (rowsFor rows c3) (rowsFor_scrip rows c3) l
            (List.mem_of_mem_filter hl))
        hc2
    rw [← hflt]
    exact hperm

/-- Witness for C9: security 1's rows are dated 5 then 3 (out of order),
security 0's are in order. -/
theorem unsorted_excluded_witness :
    1 ∈ unsortedCompanies
      [⟨0, 1, "", "", 5, 2, 0, 0, 0⟩, ⟨1, 5, "", "", 4, 3, 0, 0, 1⟩,
       ⟨0, 2, "", "", 0, 0, 3, 1, 2⟩, ⟨1, 3, "", "", 2, 2, 0, 0, 3⟩] ∧
    (∀ row ∈ processAll
      [⟨0, 1, "", "", 5, 2, 0, 0, 0⟩, ⟨1, 5, "", "", 4, 3, 0, 0, 1⟩,
       ⟨0, 2, "", "", 0, 0, 3, 1, 2⟩, ⟨1, 3, "", "", 2, 2, 0, 0, 3⟩],
      row.scrip ≠ 1) ∧
    (∀ c2 : Nat, c2 ∈ companiesToProcess
      [⟨0, 1, "", "", 5, 2, 0, 0, 0⟩, ⟨1, 5, "", "", 4, 3, 0, 0, 1⟩,
       ⟨0, 2, "", "", 0, 0, 3, 1, 2⟩, ⟨1, 3, "", "", 2, 2, 0, 0, 3⟩] ↔
      c2 ∈ List.map Row.scrip
        [⟨0, 1, "", "", 5, 2, 0, 0, 0⟩, ⟨1, 5, "", "", 4, 3, 0, 0, 1⟩,
         ⟨0, 2, "", "", 0, 0, 3, 1, 2⟩, ⟨1, 3, "", "", 2, 2, 0, 0, 3⟩] ∧
      sortedCompany
        [⟨0, 1, "", "", 5, 2, 0, 0, 0⟩, ⟨1, 5, "", "", 4, 3, 0, 0, 1⟩,
         ⟨0, 2, "", "", 0, 0, 3, 1, 2⟩, ⟨1, 3, "", "", 2, 2, 0, 0, 3⟩] c2 = true) ∧
    (∀ c2 ∈ companiesToProcess
      [⟨0, 1, "", "", 5, 2, 0, 0, 0⟩, ⟨1, 5, "", "", 4, 3, 0, 0, 1⟩,
       ⟨0, 2, "", "", 0, 0, 3, 1, 2⟩, ⟨1, 3, "", "", 2, 2, 0, 0, 3⟩],
      ((processAll
        [⟨0, 1, "", "", 5, 2, 0, 0, 0⟩, ⟨1, 5, "", "", 4, 3, 0, 0, 1⟩,
         ⟨0, 2, "", "", 0, 0, 3, 1, 2⟩, ⟨1, 3, "", "", 2, 2, 0, 0, 3⟩]).filter
        (fun row => decide (row.scrip = c2))).Perm
        (((processSecurity (rowsFor
          [⟨0, 1, "", "", 5, 2, 0, 0, 0⟩, ⟨1, 5, "", "", 4, 3, 0, 0, 1⟩,
           ⟨0, 2, "", "", 0, 0, 3, 1, 2⟩, ⟨1, 3, "", "", 2, 2, 0, 0, 3⟩] c2)).1.filter
          (fun l => decide (0 < l.remainingQty))).map toResultRow)) :=
  unsorted_excluded
    [⟨0, 1, "", "", 5, 2, 0, 0, 0⟩, ⟨1, 5, "", "", 4, 3, 0, 0, 1⟩,
     ⟨0, 2, "", "", 0, 0, 3, 1, 2⟩, ⟨1, 3, "", "", 2, 2, 0, 0, 3⟩] 1
    (by decide) (by decide)

end Fifo
